import Mathlib

/-!
# A shallow embedding of the rat PEG check engine

This file embeds the core of the `rat` packrat-parser library
(`grammar.go`, `result.go`, and the `rat/x` expression package) in Lean 4
and proves properties of the embedded code.

Conventions of the embedding:

* Go `[]rune` buffers become `List Char`; Go `int` positions and spans
  become `Int` (Go ints are signed and the code produces `len(r) - 1`,
  which can be `-1`).
* A rule's `CheckFunc` closure becomes a case of the `check` evaluator
  over the expression type `Exp`.  `check` returns `Option Result`:
  `none` models a Go runtime panic (out-of-range slice index) or a
  diverging loop cut off by the explicit `fuel` bound; `some res` models
  the Go function returning `res`.
* `fuel` bounds the call depth; each recursive rule invocation and each
  iteration of the unbounded `Mmx` loop consumes one unit.  Every
  theorem about `check` either quantifies over all fuels or supplies a
  concrete sufficient fuel.
-/

namespace Rat

/-- Embeds the rat/x expression operators whose rules are lowered by
`Grammar.Make*` in `grammar.go` and whose `CheckFunc` closures the
`check` evaluator reproduces.  `str` is `x.Str`, `named` is `x.N`,
`seqR` is the rule list enclosed by an `x.Seq` rule, `one` is `x.One`,
`mmx` is `x.Mmx`, `see`/`notx` are `x.See`/`x.Not`, `toR` is `x.To`,
`anyN`/`anyMmx` are the two arities of `x.Any`, `rng` is `x.Rng` and
`endx` is `x.End`. -/
inductive Exp : Type where
  | str (s : List Char)
  | named (name : String) (sub : Exp)
  | seqR (subs : List Exp)
  | one (alts : List Exp)
  | mmx (min max : Int) (sub : Exp)
  | see (sub : Exp)
  | notx (sub : Exp)
  | toR (sub : Exp)
  | anyN (n : Int)
  | anyMmx (m n : Int)
  | rng (lo hi : Char)
  | endx
  deriving Repr

/-- Embeds the error values stored in `Result.X` (`errors.go`):
`expectedRune` is `ErrExpected` holding a rune, `expectedStr` is
`ErrExpected` holding a string, `expectedExp` is `ErrExpected` holding
the rat/x expression of the failed rule, and `isZero` is `ErrIsZero`. -/
inductive Err : Type where
  | expectedRune (c : Char)
  | expectedStr (s : List Char)
  | expectedExp (e : Exp)
  | isZero
  deriving Repr

/-- Embeds `rat.Result` (`result.go`): name `N`, integer id `I`,
inclusive begin `B`, exclusive end `E`, error `X`, children `C` and the
shared buffer `R`. -/
structure Result : Type where
  N : String := ""
  I : Int := 0
  B : Int := 0
  E : Int := 0
  X : Option Err := none
  C : List Result
  R : List Char := []
  deriving Repr

/-- Embeds the Go expression `r[i]` on a `[]rune` slice: `none` when the
index is out of range (a Go runtime panic at use sites that do not guard
the access). -/
def runeAt (r : List Char) (i : Int) : Option Char :=
  if 0 ≤ i then r.get? i.toNat else none

/-- The matching loop of the `x.Str` check closure (`grammar.go`,
`MakeStr`): `for i < len(r) && n < runeslen { if r[i] != runes[n]
{ break }; i++; n++ }`.  The cursor pair `(i, n)` is represented as the
input position `i` together with the still-unmatched literal suffix
`runes[n:]`; the loop returns both at exit.  `none` models the panic of
`r[i]` at a negative index. -/
def strGo (r : List Char) : List Char → Int → Option (Int × List Char)
  | [], i => some (i, [])
  | sc :: srest, i =>
      if i < (r.length : Int) then
        match runeAt r i with
        | none => none
        | some c => if c ≠ sc then some (i, sc :: srest) else strGo r srest (i + 1)
      else some (i, sc :: srest)

/-- The `x.Str` check closure (`grammar.go`, `MakeStr`).  The error
assigned inside the loop on a mismatch (`ErrExpected{r[n]}`) is always
overwritten by the `n < runeslen` test after the loop, so the returned
error is `ErrExpected{string(runes[n])}` — the first unmatched literal
rune — exactly when the loop stopped short of the whole literal. -/
def strCheck (s r : List Char) (i : Int) : Option Result :=
  match strGo r s i with
  | none => none
  | some (iEnd, srest) =>
      some { B := i, E := iEnd,
             X := match srest with
                  | [] => none
                  | c :: _ => some (.expectedStr [c]),
             C := [], R := r }

/-- The sub-rule loop of the `x.Seq` check closure (`grammar.go`,
`MakeSeq`): check each rule where the previous one ended, collect every
result, stop at the first failing one.  Returns the final position, the
collected children and the error of the failing child (if any). -/
def seqGo (chk : Exp → Int → Option Result) :
    List Exp → Int → List Result → Option (Int × List Result × Option Err)
  | [], i, acc => some (i, acc, none)
  | sub :: rest, i, acc =>
      match chk sub i with
      | none => none
      | some res =>
          if res.X.isNone then seqGo chk rest res.E (acc ++ [res])
          else some (res.E, acc ++ [res], res.X)

/-- The alternative loop of the `x.One` check closure (`grammar.go`,
`MakeOne`): try each alternative at the same position, return the first
success; `some none` means every alternative failed. -/
def oneGo (chk : Exp → Int → Option Result) :
    List Exp → Int → Option (Option Result)
  | [], _ => some none
  | sub :: rest, i =>
      match chk sub i with
      | none => none
      | some res => if res.X.isNone then some (some res) else oneGo chk rest i

/-- The repetition loop of the `x.Mmx` check closure (`grammar.go`,
`MakeMmx`): `for { res = irule.Check(r, i); if res.X != nil || count ==
max { break }; result.C = append(result.C, res); i = res.E; result.E =
i; count++ }`.  Returns the appended children, the final consumed
position, the count and the result of the last (unconsumed) check;
`none` models a diverging loop (fuel ran out). -/
def mmxGo (chk : Int → Option Result) (mx : Int) :
    Nat → Int → Nat → List Result → Option (List Result × Int × Nat × Result)
  | 0, _, _, _ => none
  | fuel + 1, i, count, acc =>
      match chk i with
      | none => none
      | some res =>
          if res.X.isSome ∨ (count : Int) = mx then some (acc, i, count, res)
          else mmxGo chk mx fuel res.E (count + 1) (acc ++ [res])

/-- The scan loop of the `x.To` check closure (`grammar.go`, `MakeTo`):
`for ; i < len(r); i++ { if sub succeeds at i, return result; result.E++
}`.  Returns the final `result.E` and whether the sub-rule ever
succeeded; `none` models a panic inside the sub-rule (fuel is ample for
the loop itself, which is bounded by the buffer length). -/
def toGo (chk : Int → Option Result) (rlen : Int) :
    Nat → Int → Int → Option (Int × Bool)
  | 0, _, _ => none
  | fuel + 1, i, e =>
      if i < rlen then
        match chk i with
        | none => none
        | some res =>
            if res.X.isNone then some (e, true) else toGo chk rlen fuel (i + 1) (e + 1)
      else some (e, false)

/-- The check engine: one case per `CheckFunc` closure built by the
`Grammar.Make*` methods of `grammar.go`.  `fuel` bounds the rule-call
depth and the iteration count of the unbounded loops; `none` is a Go
panic or a computation that exceeds the fuel. -/
def check : Nat → Exp → List Char → Int → Option Result
  | 0, _, _, _ => none
  | fuel + 1, e, r, i =>
      match e with
      | .str s => strCheck s r i
      | .named nm sub =>
          match check fuel sub r i with
          | none => none
          | some res => some { res with N := nm }
      | .seqR subs =>
          match seqGo (fun sub j => check fuel sub r j) subs i [] with
          | none => none
          | some (iEnd, results, err) =>
              some { B := i, E := iEnd, X := err, C := results, R := r }
      | .one alts =>
          match oneGo (fun sub j => check fuel sub r j) alts i with
          | none => none
          | some (some res) => some { B := i, E := res.E, C := [res], R := r }
          | some none =>
              some { B := i, E := i, X := some (.expectedExp (.one alts)), C := [], R := r }
      | .mmx mn mx sub =>
          match mmxGo (fun j => check fuel sub r j) mx fuel i 0 [] with
          | none => none
          | some (acc, iEnd, count, last) =>
              if mn ≤ (count : Int) ∧ (count : Int) ≤ mx then
                some { B := i, E := iEnd,
                       C := if last.X.isNone then acc ++ [last] else acc, R := r }
              else
                some { B := i, E := iEnd, X := some (.expectedExp (.mmx mn mx sub)),
                       C := acc, R := r }
      | .see sub =>
          match check fuel sub r i with
          | none => none
          | some res =>
              if res.X.isNone then some { B := i, E := i, C := [], R := r }
              else some { B := i, E := i, X := some (.expectedExp (.see sub)), C := [], R := r }
      | .notx sub =>
          match check fuel sub r i with
          | none => none
          | some res =>
              if res.X.isSome then some { B := i, E := i, C := [], R := r }
              else some { B := i, E := i, X := some (.expectedExp (.notx sub)), C := [], R := r }
      | .toR sub =>
          match toGo (fun j => check fuel sub r j) (r.length : Int) fuel i i with
          | none => none
          | some (e, true) => some { B := i, E := e, C := [], R := r }
          | some (e, false) =>
              some { B := i, E := e, X := some (.expectedExp (.toR sub)), C := [], R := r }
      | .anyN n =>
          if i + n > (r.length : Int) then
            some { B := i, E := (r.length : Int) - 1,
                   X := some (.expectedExp (.anyN n)), C := [], R := r }
          else some { B := i, E := i + n, C := [], R := r }
      | .anyMmx m n =>
          if i + m > (r.length : Int) then
            some { B := i, E := (r.length : Int) - 1,
                   X := some (.expectedExp (.anyMmx m n)), C := [], R := r }
          else if i + n < (r.length : Int) then
            some { B := i, E := i + n, C := [], R := r }
          else
            some { B := i, E := (r.length : Int), C := [], R := r }
      | .rng lo hi =>
          match runeAt r i with
          | none => none
          | some cur =>
              if lo ≤ cur ∧ cur ≤ hi then some { B := i, E := i + 1, C := [], R := r }
              else some { B := i, E := i, X := some (.expectedExp (.rng lo hi)), C := [], R := r }
      | .endx =>
          if i = (r.length : Int) then some { B := i, E := i, C := [], R := r }
          else some { B := i, E := i, X := some (.expectedExp .endx), C := [], R := r }

/-- Embeds `Grammar.Scan` (`grammar.go` lines 78–83): when `g.Main` is nil the
scan returns `Result{X: ErrIsZero{g.Main}}` (all other fields zero)
without invoking any rule; otherwise it delegates to `Main.Scan`, which
converts the input to runes and calls `Check(runes, 0)`. -/
def gScan (main : Option Exp) (input : List Char) (fuel : Nat) : Option Result :=
  match main with
  | none => some { B := 0, E := 0, X := some .isZero, C := [], R := [] }
  | some e => check fuel e input 0

/-- The grammar construction state for the memoization claims.  Go rule
objects are pointers, so rule identity is modelled by an allocation
counter: every `new(Rule)` (and every rule literal `&Rule{...}`) yields
the next fresh id.  `rules` is the `Grammar.Rules` map, keyed by the
canonical name; a later insert for the same key overwrites an earlier
one, which the head-first association-list lookup reproduces. -/
structure GrammarS : Type where
  rules : List (String × Nat)
  nextId : Nat

/-- Lookup in the `Grammar.Rules` map (`rule, has := g.Rules[name]`). -/
def lookupRule (g : GrammarS) (name : String) : Option Nat :=
  (g.rules.find? (fun p => p.1 == name)).map Prod.snd

/-- The cache key built by `Grammar.MakeStr` (`grammar.go` line 498):
the value is spliced between `x.Str{"` and `"}` without quoting. -/
def strName (val : String) : String :=
  "x.Str\x7b\"" ++ val ++ "\"\x7d"

/-- Embeds `Grammar.MakeStr` (`grammar.go` lines 480–529) restricted to the
cache behaviour: check the `Rules` map for the canonical name and return
the cached rule if present, otherwise allocate a fresh rule and install
it under that name. -/
def makeStrG (val : String) (g : GrammarS) : Nat × GrammarS :=
  match lookupRule g (strName val) with
  | some id => (id, g)
  | none => (g.nextId, ⟨(strName val, g.nextId) :: g.rules, g.nextId + 1⟩)

/-- Embeds `Grammar.MakeEnd` (`grammar.go` lines 827–846) restricted to the
cache behaviour: unlike every other `Make*` method it never consults
the `Rules` map;  it always allocates `rule := new(Rule)` and calls
`AddRule`, which overwrites the existing entry for `x.End{}`. -/
def makeEndG (g : GrammarS) : Nat × GrammarS :=
  (g.nextId, ⟨("x.End\x7b\x7d", g.nextId) :: g.rules, g.nextId + 1⟩)

/-- The construction-time argument checks of the `Any` rules
(`makeAnyN` accepts any integer; `makeAnyMmx` panics unless `m < n` and
`n > 0`; `MakeMmx` panics unless `min ≥ 0` and `max ≥ min ∨ max = -1`),
plus the extra assumption `0 ≤ n` on `x.Any{n}`, which `makeAnyN`
does not validate. -/
def WFExp : Exp → Prop
  | .str _ => True
  | .named _ sub => WFExp sub
  | .seqR subs => ∀ s ∈ subs, WFExp s
  | .one alts => ∀ s ∈ alts, WFExp s
  | .mmx mn mx sub => 0 ≤ mn ∧ (mn ≤ mx ∨ mx = -1) ∧ WFExp sub
  | .see sub => WFExp sub
  | .notx sub => WFExp sub
  | .toR sub => WFExp sub
  | .anyN n => 0 ≤ n
  | .anyMmx m n => m < n ∧ 0 < n
  | .rng _ _ => True
  | .endx => True

/-- The span invariant of a result node against a buffer of length
`len`: begin within the buffer, end at most the buffer length and at
least `-1`, and begin ≤ end whenever the node succeeded. -/
def goodNode (len : Int) (res : Result) : Prop :=
  0 ≤ res.B ∧ res.B ≤ len ∧ -1 ≤ res.E ∧ res.E ≤ len ∧
    (res.X = none → res.B ≤ res.E)

/-- States `goodNode` on a result and all of its descendants. -/
inductive GoodTree (len : Int) : Result → Prop where
  | node (res : Result) (hn : goodNode len res)
      (hC : ∀ c ∈ res.C, GoodTree len c) : GoodTree len res

/-- The invariant claimed by the specification: `0 ≤ B ≤ E ≤ len` on a
single node. -/
def specNode (len : Int) (res : Result) : Prop :=
  0 ≤ res.B ∧ res.B ≤ res.E ∧ res.E ≤ len

/-- The number of non-failing children of a result. -/
def countNonFailing (res : Result) : Nat :=
  res.C.countP (fun c => c.X.isNone)

/-- Length of the longest common prefix of two rune sequences. -/
def lcp : List Char → List Char → Nat
  | a :: as, b :: bs => if a = b then lcp as bs + 1 else 0
  | _, _ => 0



namespace XP

/-!
The canonical-printing layer of the rat/x package
(`src/unnamed/part_021`, the `x.Str`-based draft): the `String` methods
of the expression types and the `CombineStr`/`JoinStr` helpers.  Only
the term shapes the combine-literals claim needs are embedded: Go
string values (`rawstr`), `x.Str`, `x.Ref`, `x.Sav` and `x.Seq`.
-/

/-- A value appearing in a rat/x `[]any` argument list. -/
inductive XT : Type where
  | rawstr (s : List Char)
  | strx (args : List XT)
  | refx (name : List Char)
  | savx (name : List Char)
  | seqx (args : List XT)
  deriving Repr

/-- The type-switch of `CombineStr` (`part_021` lines 849–871): the
listed rat/x expression types break a literal run; everything else
(plain Go values and `Str` itself) is combined. -/
def isRatexType : XT → Bool
  | .refx _ => true
  | .savx _ => true
  | .seqx _ => true
  | _ => false

/-- The loop of `CombineStr`: accumulate literal-compatible values into
`comb` (a `Str`), flush it whenever a rat/x-typed value is met and at
the end of the list. -/
def combineGo : List XT → List XT → List XT → Bool → List XT
  | [], rules, comb, combining =>
      if combining then rules ++ [.strx comb] else rules
  | it :: rest, rules, comb, combining =>
      if isRatexType it then
        if combining then combineGo rest (rules ++ [.strx comb, it]) [] false
        else combineGo rest (rules ++ [it]) [] false
      else combineGo rest rules (comb ++ [it]) true

/-- Embeds `CombineStr(args...)` (`part_021` lines 849–871). -/
def combineStr (args : List XT) : List XT :=
  combineGo args [] [] false

/-- A hexadecimal digit as rendered by Go's `strconv`. -/
def hexDigit (n : Nat) : Char :=
  if n < 10 then Char.ofNat (48 + n) else Char.ofNat (87 + n)

/-- The per-rune escaping of Go's `%q` (`strconv.Quote`): backslash and
quote escaped, the named control escapes, `\xhh` for other control
bytes, every printable rune kept literal. -/
def escChar (c : Char) : List Char :=
  if c = '"' then ['\\', '"']
  else if c = '\\' then ['\\', '\\']
  else if c = '\x07' then ['\\', 'a']
  else if c = '\x08' then ['\\', 'b']
  else if c = '\x0c' then ['\\', 'f']
  else if c = '\n' then ['\\', 'n']
  else if c = '\r' then ['\\', 'r']
  else if c = '\t' then ['\\', 't']
  else if c = '\x0b' then ['\\', 'v']
  else if c.toNat < 32 ∨ c.toNat = 127 then
    ['\\', 'x', hexDigit (c.toNat / 16), hexDigit (c.toNat % 16)]
  else [c]

/-- Go's `%q` of a string: the escaped runes between double quotes. -/
def goQuote (s : List Char) : List Char :=
  '"' :: s.flatMap escChar ++ ['"']

/-- The byte slice `buf[7 : len(buf)-2]` taken by `JoinStr` of the
printed form `x.Str{"…"}` of each argument: drop the seven-byte prefix
and the two-byte suffix. -/
def strip (l : List Char) : List Char :=
  ((l.drop 7).dropLast).dropLast

/-- Comma-separated concatenation as built by the `String` methods. -/
def commaJoin : List (List Char) → List Char
  | [] => []
  | [x] => x
  | x :: rest => x ++ (", ".toList ++ commaJoin rest)

/-- Embeds `UsageStr` (`src/x/text.go`). -/
def usageStr : List Char := "\"%!USAGE: x.Str\x7b...any\x7d\"".toList

/-- Embeds `UsageSeq` (`src/x/text.go`). -/
def usageSeq : List Char := "\"%!USAGE: x.Seq\x7b...rule\x7d\"".toList

mutual

/-- Weight of a term, used as the termination measure of the printer;
`seqx` weighs one more than `strx` because `Seq.String` re-prints the
`Str` wrappers created by `CombineStr`. -/
def wXT : XT → Nat
  | .rawstr _ => 1
  | .refx _ => 1
  | .savx _ => 1
  | .strx args => 1 + wList args
  | .seqx args => 2 + wList args

/-- Total weight of a term list. -/
def wList : List XT → Nat
  | [] => 0
  | a :: as => 1 + wXT a + wList as

end

theorem wXT_pos (e : XT) : 1 ≤ wXT e := by
  cases e <;> simp only [wXT] <;> omega

theorem wList_mem_le {l : List XT} {e : XT} (h : e ∈ l) : wXT e ≤ wList l := by
  induction l with
  | nil => cases h
  | cons a as ih =>
      simp only [wList]
      rcases List.mem_cons.mp h with h | h
      · subst h; omega
      · have := ih h; omega

theorem wList_append (a b : List XT) : wList (a ++ b) = wList a + wList b := by
  induction a with
  | nil => simp [wList]
  | cons x xs ih => simp [wList, ih]; omega

/-- Every element produced by the `CombineStr` loop is either an input
`rules` element or weighs at most one more than the pending run plus
the remaining input. -/
theorem combineGo_w :
    ∀ (rest rules comb : List XT) (combining : Bool),
      ∀ it ∈ combineGo rest rules comb combining,
        it ∈ rules ∨ wXT it ≤ 1 + wList comb + wList rest := by
  intro rest
  induction rest with
  | nil =>
      intro rules comb combining it hit
      simp only [combineGo] at hit
      by_cases hc : combining
      · simp only [hc, if_true] at hit
        rcases List.mem_append.mp hit with h | h
        · exact Or.inl h
        · right
          simp only [List.mem_singleton] at h
          subst h
          simp [wXT, wList]
      · simp only [hc, if_false] at hit
        exact Or.inl hit
  | cons a rest ih =>
      intro rules comb combining it hit
      simp only [combineGo] at hit
      by_cases hr : isRatexType a = true
      · by_cases hcb : combining
        · simp only [hr, hcb, if_true] at hit
          rcases ih _ _ _ it hit with h | h
          · rcases List.mem_append.mp h with h | h
            · exact Or.inl h
            · right
              rcases List.mem_cons.mp h with h | h
              · subst h
                simp only [wXT, wList]
                omega
              · simp only [List.mem_singleton] at h
                subst h
                have : wXT it ≤ wList (it :: rest) := wList_mem_le (List.mem_cons_self it rest)
                simp only [wList] at this ⊢
                omega
          · right
            simp only [wList] at h ⊢
            omega
        · simp only [hr, hcb, if_true, if_false] at hit
          rcases ih _ _ _ it hit with h | h
          · rcases List.mem_append.mp h with h | h
            · exact Or.inl h
            · right
              simp only [List.mem_singleton] at h
              subst h
              have : wXT it ≤ wList (it :: rest) := wList_mem_le (List.mem_cons_self it rest)
              simp only [wList] at this ⊢
              omega
          · right
            simp only [wList] at h ⊢
            omega
      · simp only [hr, if_false] at hit
        rcases ih _ _ _ it hit with h | h
        · exact Or.inl h
        · right
          rw [wList_append] at h
          simp only [wList] at h ⊢
          omega

/-- Weight bound for `CombineStr`: every output element weighs at most
one more than the whole input list. -/
theorem combineStr_w {args : List XT} {it : XT} (h : it ∈ combineStr args) :
    wXT it ≤ 1 + wList args := by
  rcases combineGo_w args [] [] false it h with h | h
  · cases h
  · simpa [wList] using h

mutual

/-- Embeds `x.String(it)` and the `String` methods of the embedded types
(`part_021` lines 779–833, 1084–1125, 1188–1208 and the `Ref`/`Sav`
methods): a Go string prints as `x.Str{%q}`, `Ref`/`Sav` print their
quoted name, `Str` and `Seq` dispatch to their own `String` methods,
and `Seq` combines literal runs with `CombineStr` before printing. -/
def xString : XT → List Char
  | .rawstr s => "x.Str\x7b".toList ++ goQuote s ++ ['\x7d']
  | .refx n => "x.Ref\x7b".toList ++ goQuote n ++ ['\x7d']
  | .savx n => "x.Sav\x7b".toList ++ goQuote n ++ ['\x7d']
  | .strx args => strxPrint args
  | .seqx args =>
      match args with
      | [] => usageSeq
      | [a] => xString a
      | a :: b :: rest =>
          match hc : combineStr (a :: b :: rest) with
          | [x] => xString x
          | l =>
              "x.Seq\x7b".toList ++
                commaJoin (l.attach.map (fun it => xString it.1)) ++ ['\x7d']
termination_by e => 3 * wXT e
decreasing_by
  · simp only [wXT]; omega
  · simp only [wXT, wList]
    have := wXT_pos a
    omega
  · have hx : x ∈ combineStr (a :: b :: rest) := by rw [hc]; exact List.mem_singleton_self x
    have := combineStr_w hx
    simp only [wXT, wList] at this ⊢
    omega
  · have hx : it.1 ∈ combineStr (a :: b :: rest) := by rw [hc]; exact it.2
    have := combineStr_w hx
    simp only [wXT, wList] at this ⊢
    omega

/-- Embeds `Str.String` (`part_021` lines 1188–1208): usage sentinel when
empty, the single argument's form when singleton, otherwise the joined
literal between `x.Str{"` and `"}`. -/
def strxPrint : List XT → List Char
  | [] => usageStr
  | [a] => xString a
  | args => "x.Str\x7b\"".toList ++ joinStr args ++ "\"\x7d".toList
termination_by l => 3 * wList l + 2
decreasing_by
  · simp only [wList]; omega
  · omega

/-- Embeds `JoinStr` (`part_021` lines 838–845): concatenate
`buf[7:len(buf)-2]` of each argument's printed form. -/
def joinStr : List XT → List Char
  | [] => []
  | it :: rest => strip (xString it) ++ joinStr rest
termination_by l => 3 * wList l + 1
decreasing_by
  · simp only [wList]; omega
  · simp only [wList]; omega

end

end XP

end Rat


namespace Rat

theorem runeAt_len (r : List Char) : runeAt r (r.length : Int) = none := by
  simp [runeAt]

/-- C1: for every `min` and sub-rule, a check of `mmx(min, -1, sub)`
(unbounded maximum) that returns at all returns a failing result: the
success test `min <= count && count <= max` can never hold for
`max = -1`, so the claimed "succeeds iff at least `min` consecutive
matches" is false — unbounded repetitions always fail. -/
theorem mmx_unbounded_never_succeeds (fuel : Nat) (mn : Int) (sub : Exp) (r : List Char)
    (i : Int) (res : Result) (h : check fuel (.mmx mn (-1) sub) r i = some res) :
    res.X.isSome := by
  match fuel with
  | 0 => simp [check] at h
  | fuel + 1 =>
      simp only [check] at h
      split at h
      · exact absurd h (by simp)
      · rename_i acc iE count last heq
        split at h
        · rename_i hcond
          exfalso
          have h0 : (0 : Int) ≤ (count : Int) := Int.natCast_nonneg count
          omega
        · cases h
          rfl

/-- Witness for C1 at a concrete input: `mmx(0, -1, str "a")` on
`"aaa"` matches three times (at least the minimum 0) yet fails. -/
theorem mmx_unbounded_never_succeeds_witness :
    check 9 (.mmx 0 (-1) (.str ['a'])) ['a', 'a', 'a'] 0 =
      some { B := 0, E := 3, X := some (.expectedExp (.mmx 0 (-1) (.str ['a']))),
             C := [{ B := 0, E := 1, C := [], R := ['a', 'a', 'a'] },
                   { B := 1, E := 2, C := [], R := ['a', 'a', 'a'] },
                   { B := 2, E := 3, C := [], R := ['a', 'a', 'a'] }],
             R := ['a', 'a', 'a'] } ∧
    ({ B := 0, E := 3, X := some (.expectedExp (.mmx 0 (-1) (.str ['a']))),
       C := [{ B := 0, E := 1, C := [], R := ['a', 'a', 'a'] },
             { B := 1, E := 2, C := [], R := ['a', 'a', 'a'] },
             { B := 2, E := 3, C := [], R := ['a', 'a', 'a'] }],
       R := ['a', 'a', 'a'] } : Result).X.isSome :=
  ⟨rfl, mmx_unbounded_never_succeeds 9 0 (.str ['a']) ['a', 'a', 'a'] 0 _ rfl⟩

/-- C3: the `rng` check reads `r[i]` without a bounds test, so at
end-of-input (`i = len(r)`) it panics (modelled by `none`) instead of
returning a failing result. -/
theorem rng_panics_at_end (lo hi : Char) (r : List Char) (fuel : Nat) :
    check fuel (.rng lo hi) r (r.length : Int) = none := by
  match fuel with
  | 0 => rfl
  | fuel + 1 => simp [check, runeAt_len]

/-- C4 (amended): `any(n)` succeeds with `end = i + n` when `i + n ≤
len(r)` and otherwise fails with `end = len(r) - 1` (not `len(r)` as
claimed); the `any(min, max)` form fails the same way when fewer than
`min` runes remain. -/
theorem any_spans (n : Int) (r : List Char) (i : Int) (fuel : Nat) :
    (i + n ≤ (r.length : Int) →
      check (fuel + 1) (.anyN n) r i =
        some { B := i, E := i + n, X := none, C := [], R := r }) ∧
    ((r.length : Int) < i + n →
      check (fuel + 1) (.anyN n) r i =
        some { B := i, E := (r.length : Int) - 1,
               X := some (.expectedExp (.anyN n)), C := [], R := r }) ∧
    (∀ m mx : Int, (r.length : Int) < i + m →
      check (fuel + 1) (.anyMmx m mx) r i =
        some { B := i, E := (r.length : Int) - 1,
               X := some (.expectedExp (.anyMmx m mx)), C := [], R := r }) := by
  refine ⟨?_, ?_, ?_⟩
  · intro hle
    simp only [check]
    rw [if_neg (by omega)]
  · intro hgt
    simp only [check]
    rw [if_pos (by omega)]
  · intro m mx hgt
    simp only [check]
    rw [if_pos (by omega)]

/-- Witness for C4 (amended) at concrete inputs. -/
theorem any_spans_witness :
    check 5 (.anyN 2) ['.', '.', '.'] 0 =
      some { B := 0, E := 2, X := none, C := [], R := ['.', '.', '.'] } ∧
    check 5 (.anyN 3) ['.', '.'] 0 =
      some { B := 0, E := 1, X := some (.expectedExp (.anyN 3)), C := [], R := ['.', '.'] } ∧
    check 5 (.anyMmx 2 4) ['.'] 0 =
      some { B := 0, E := 0, X := some (.expectedExp (.anyMmx 2 4)), C := [], R := ['.'] } :=
  ⟨(any_spans 2 ['.', '.', '.'] 0 4).1 (by decide),
   ((any_spans 3 ['.', '.'] 0 4).2.1 (by decide)),
   ((any_spans 3 ['.'] 0 4).2.2 2 4 (by decide))⟩

/-- C4 counterexample: `any(3)` checked on the two-rune buffer `".."`
fails with `end = 1 = len(r) - 1`, not `len(r) = 2` as the claim
states. -/
theorem any_fail_end_cex :
    check 5 (.anyN 3) ['.', '.'] 0 =
      some { B := 0, E := 1, X := some (.expectedExp (.anyN 3)), C := [], R := ['.', '.'] } ∧
    (1 : Int) ≠ (([ '.', '.' ] : List Char).length : Int) :=
  ⟨rfl, by decide⟩

/-- C2 counterexample: `any(1)` checked on the empty buffer fails with
`end = -1`, violating `0 ≤ begin ≤ end ≤ |s|`. -/
theorem span_invariant_cex :
    check 5 (.anyN 1) [] 0 =
      some { B := 0, E := -1, X := some (.expectedExp (.anyN 1)), C := [], R := [] } ∧
    ¬ specNode (([] : List Char).length : Int)
        { B := 0, E := -1, X := some (.expectedExp (.anyN 1)), C := [], R := [] } :=
  ⟨rfl, by simp [specNode]⟩

/-- C8: within one grammar, a second `MakeStr` of the same literal
returns the cached rule, but `MakeEnd` never consults the cache: two
`MakeEnd` calls return two distinct rule objects, contradicting the
claim (and the memoization contract documented on `Grammar`) for the
`End` operator. -/
theorem memoization_end_not_cached (g : GrammarS) (val : String) :
    (makeStrG val (makeStrG val g).2).1 = (makeStrG val g).1 ∧
    (makeEndG (makeEndG g).2).1 ≠ (makeEndG g).1 := by
  constructor
  · cases hl : lookupRule g (strName val) with
    | some id => simp [makeStrG, hl]
    | none =>
        simp only [makeStrG, hl]
        simp [lookupRule, List.find?]
  · simp [makeEndG]

/-- Witness for C8 at a concrete grammar state. -/
theorem memoization_end_not_cached_witness :
    (makeStrG "a" (makeStrG "a" ⟨[], 0⟩).2).1 = (makeStrG "a" (⟨[], 0⟩ : GrammarS)).1 ∧
    (makeEndG (makeEndG ⟨[], 0⟩).2).1 ≠ (makeEndG (⟨[], 0⟩ : GrammarS)).1 :=
  memoization_end_not_cached ⟨[], 0⟩ "a"

/-- C10: scanning a grammar whose `Main` rule was never set returns the
`ErrIsZero` failure for every input, without invoking any rule; no such
scan can succeed. -/
theorem scan_nil_main (input : List Char) (fuel : Nat) :
    gScan none input fuel =
      some { B := 0, E := 0, X := some .isZero, C := [], R := [] } ∧
    (∀ res, gScan none input fuel = some res → res.X ≠ none) := by
  refine ⟨rfl, ?_⟩
  intro res h
  simp only [gScan] at h
  cases h
  simp

/-- Witness for C10 at a concrete input. -/
theorem scan_nil_main_witness :
    gScan none ['a'] 3 =
      some { B := 0, E := 0, X := some .isZero, C := [], R := [] } ∧
    ({ B := 0, E := 0, X := some Err.isZero, C := [], R := [] } : Result).X ≠ none :=
  ⟨(scan_nil_main ['a'] 3).1, (scan_nil_main ['a'] 3).2 _ (scan_nil_main ['a'] 3).1⟩

end Rat

namespace Rat

/-- C5: ordered choice over two alternatives: both alternatives are
checked at the same starting position; the first success becomes the
single child with the parent ending where it ends; if both fail the
parent fails zero-width at `i`; and the whole succeeds iff `a` succeeds
at `i` or `a` fails at `i` and `b` succeeds at `i`. -/
theorem one_of_ordered_choice (fuel : Nat) (a b : Exp) (r : List Char) (i : Int)
    (ra rb : Result) (ha : check fuel a r i = some ra) (hb : check fuel b r i = some rb) :
    (ra.X = none →
      check (fuel + 1) (.one [a, b]) r i =
        some { B := i, E := ra.E, X := none, C := [ra], R := r }) ∧
    (ra.X ≠ none → rb.X = none →
      check (fuel + 1) (.one [a, b]) r i =
        some { B := i, E := rb.E, X := none, C := [rb], R := r }) ∧
    (ra.X ≠ none → rb.X ≠ none →
      check (fuel + 1) (.one [a, b]) r i =
        some { B := i, E := i, X := some (.expectedExp (.one [a, b])), C := [], R := r }) ∧
    ((∃ res, check (fuel + 1) (.one [a, b]) r i = some res ∧ res.X = none) ↔
      (ra.X = none ∨ (ra.X ≠ none ∧ rb.X = none))) := by
  have hgo : oneGo (fun sub j => check fuel sub r j) [a, b] i =
      (if ra.X.isNone then some (some ra)
       else if rb.X.isNone then some (some rb) else some none) := by
    simp only [oneGo, ha, hb]
  refine ⟨?_, ?_, ?_, ?_⟩
  · intro hra
    simp only [check, hgo, hra, Option.isNone_none, if_true]
  · intro hra hrb
    simp only [check, hgo]
    rw [if_neg (by simpa [Option.isNone_iff_eq_none] using hra),
        if_pos (by simpa [Option.isNone_iff_eq_none] using hrb)]
  · intro hra hrb
    simp only [check, hgo]
    rw [if_neg (by simpa [Option.isNone_iff_eq_none] using hra),
        if_neg (by simpa [Option.isNone_iff_eq_none] using hrb)]
  · constructor
    · rintro ⟨res, hres, hok⟩
      simp only [check, hgo] at hres
      by_cases hxa : ra.X = none
      · exact Or.inl hxa
      · right
        refine ⟨hxa, ?_⟩
        by_cases hxb : rb.X = none
        · exact hxb
        · exfalso
          rw [if_neg (by simpa [Option.isNone_iff_eq_none] using hxa),
              if_neg (by simpa [Option.isNone_iff_eq_none] using hxb)] at hres
          cases hres
          simp at hok
    · rintro (hxa | ⟨hxa, hxb⟩)
      · refine ⟨{ B := i, E := ra.E, X := none, C := [ra], R := r }, ?_, rfl⟩
        simp only [check, hgo, hxa, Option.isNone_none, if_true]
      · refine ⟨{ B := i, E := rb.E, X := none, C := [rb], R := r }, ?_, rfl⟩
        simp only [check, hgo]
        rw [if_neg (by simpa [Option.isNone_iff_eq_none] using hxa),
            if_pos (by simpa [Option.isNone_iff_eq_none] using hxb)]

/-- Witness for C5 at concrete inputs: alternatives `"foo"` and `"bar"`
on the buffer `"bar"`. -/
theorem one_of_ordered_choice_witness :
    check 6 (.one [.str ['f', 'o', 'o'], .str ['b', 'a', 'r']]) ['b', 'a', 'r'] 0 =
      some { B := 0, E := 3, X := none,
             C := [{ B := 0, E := 3, X := none, C := [], R := ['b', 'a', 'r'] }],
             R := ['b', 'a', 'r'] } :=
  (one_of_ordered_choice 5 (.str ['f', 'o', 'o']) (.str ['b', 'a', 'r']) ['b', 'a', 'r'] 0
      { B := 0, E := 0, X := some (.expectedStr ['f']), C := [], R := ['b', 'a', 'r'] }
      { B := 0, E := 3, X := none, C := [], R := ['b', 'a', 'r'] }
      rfl rfl).2.1 (by simp) rfl

end Rat

namespace Rat

namespace XP

theorem toList_xStr : "x.Str\x7b".toList = ['x', '.', 'S', 't', 'r', '\x7b'] := rfl

theorem toList_xStrQ : "x.Str\x7b\"".toList = ['x', '.', 'S', 't', 'r', '\x7b', '"'] := rfl

theorem toList_qBrace : "\"\x7d".toList = ['"', '\x7d'] := rfl

theorem strip_quoted (fm : List Char) :
    strip (['x', '.', 'S', 't', 'r', '\x7b'] ++ ('"' :: fm ++ ['"']) ++ ['\x7d']) = fm := by
  have h2 : (['x', '.', 'S', 't', 'r', '\x7b'] ++ ('"' :: fm ++ ['"']) ++ ['\x7d']) =
      'x' :: '.' :: 'S' :: 't' :: 'r' :: '\x7b' :: '"' :: ((fm ++ ['"']) ++ ['\x7d']) := by
    simp
  rw [h2]
  simp only [strip, List.drop]
  rw [List.dropLast_concat, List.dropLast_concat]

theorem xString_strx_single (s : List Char) :
    xString (.strx [.rawstr s]) =
      ['x', '.', 'S', 't', 'r', '\x7b'] ++ ('"' :: s.flatMap escChar ++ ['"']) ++ ['\x7d'] := by
  rw [xString.eq_def]
  dsimp only
  rw [strxPrint.eq_def]
  dsimp only
  rw [xString.eq_def]
  dsimp only
  rw [toList_xStr, goQuote]

theorem strip_strx_single (s : List Char) :
    strip (xString (.strx [.rawstr s])) = s.flatMap escChar := by
  rw [xString_strx_single, strip_quoted]

theorem joinStr_pair (a b : List Char) :
    joinStr [.strx [.rawstr a], .strx [.rawstr b]] =
      a.flatMap escChar ++ b.flatMap escChar := by
  rw [joinStr.eq_def]
  dsimp only
  rw [joinStr.eq_def]
  dsimp only
  rw [joinStr.eq_def]
  dsimp only
  rw [strip_strx_single, strip_strx_single]
  simp

theorem combineStr_two_lits (a b : List Char) :
    combineStr [.strx [.rawstr a], .strx [.rawstr b]] =
      [.strx [.strx [.rawstr a], .strx [.rawstr b]]] := by
  simp [combineStr, combineGo, isRatexType]

theorem combineStr_lit_ref_lit (a b k : List Char) :
    combineStr [.strx [.rawstr a], .refx k, .strx [.rawstr b]] =
      [.strx [.strx [.rawstr a]], .refx k, .strx [.strx [.rawstr b]]] := by
  simp [combineStr, combineGo, isRatexType]

/-- C9: canonical printing combines adjacent literal-compatible
children of a sequence into one literal — `print(seq(str a, str b)) =
print(str (a ++ b))` — and combination stops at a non-literal child
such as a reference, whose neighbours stay separate children of the
printed sequence. -/
theorem seq_combines_literals (a b k : List Char) :
    xString (.seqx [.strx [.rawstr a], .strx [.rawstr b]]) =
      xString (.strx [.rawstr (a ++ b)]) ∧
    xString (.seqx [.strx [.rawstr a], .refx k, .strx [.rawstr b]]) =
      "x.Seq\x7b".toList ++ xString (.strx [.rawstr a]) ++ ", ".toList ++
        xString (.refx k) ++ ", ".toList ++ xString (.strx [.rawstr b]) ++ ['\x7d'] := by
  constructor
  · rw [xString.eq_def]
    dsimp only
    rw [combineStr_two_lits]
    dsimp only
    rw [xString.eq_def]
    dsimp only
    rw [strxPrint.eq_def]
    dsimp only
    rw [joinStr_pair, xString_strx_single, toList_xStrQ, toList_qBrace,
        List.flatMap_append]
    simp
  · rw [xString.eq_def]
    dsimp only
    rw [combineStr_lit_ref_lit]
    dsimp only
    simp only [List.attach_cons, List.map_cons, List.map_map, commaJoin]
    rw [show xString (.strx [.strx [.rawstr a]]) = xString (.strx [.rawstr a]) from by
          rw [xString.eq_def]; dsimp only; rw [strxPrint.eq_def],
        show xString (.strx [.strx [.rawstr b]]) = xString (.strx [.rawstr b]) from by
          rw [xString.eq_def]; dsimp only; rw [strxPrint.eq_def]]
    simp

end XP

end Rat

namespace Rat

theorem lcp_le_right : ∀ s d : List Char, lcp s d ≤ d.length := by
  intro s
  induction s with
  | nil => intro d; cases d <;> simp [lcp]
  | cons a as ih =>
      intro d
      cases d with
      | nil => simp [lcp]
      | cons b bs =>
          by_cases hab : a = b
          · simp only [lcp, hab, if_true, List.length_cons]
            exact Nat.succ_le_succ (ih bs)
          · simp [lcp, hab]

/-- The `MakeStr` loop computed in closed form: it stops after exactly
the longest common prefix of the literal and the input from `i` on. -/
theorem strGo_eq_lcp : ∀ (s : List Char) (r : List Char) (i : Int), 0 ≤ i →
    strGo r s i =
      some (i + lcp s (r.drop i.toNat), s.drop (lcp s (r.drop i.toNat))) := by
  intro s
  induction s with
  | nil =>
      intro r i h0
      cases hd : r.drop i.toNat <;> simp [strGo, lcp]
  | cons sc srest ih =>
      intro r i h0
      by_cases hi : i < (r.length : Int)
      · have hlt : i.toNat < r.length := by omega
        have hat : runeAt r i = some (r.get ⟨i.toNat, hlt⟩) := by
          simp [runeAt, h0, List.get?_eq_get hlt]
        have hdrop : r.drop i.toNat = r.get ⟨i.toNat, hlt⟩ :: r.drop (i.toNat + 1) := by
          rw [List.drop_eq_getElem_cons hlt]
          rfl
        simp only [strGo]
        rw [if_pos hi]
        simp only [hat, hdrop, lcp]
        by_cases heq : r.get ⟨i.toNat, hlt⟩ = sc
        · rw [if_neg (by simpa using heq), if_pos heq.symm]
          have h1 : (i + 1).toNat = i.toNat + 1 := by omega
          rw [ih r (i + 1) (by omega), h1]
          simp only [List.drop_succ_cons, Option.some.injEq, Prod.mk.injEq]
          constructor
          · push_cast
            ring
          · trivial
        · rw [if_pos (by simpa using heq), if_neg (fun h => heq h.symm)]
          simp
      · have hdrop : r.drop i.toNat = [] := by
          apply List.drop_eq_nil_of_le
          omega
        simp [strGo, hi, hdrop, lcp]

/-- C7 (amended): when a literal check fails, its end is the start plus
the longest common prefix of the literal and the remaining input, and
the failure names the first unmatched rune of the literal (the expected
rune, as a one-rune string) — not the input rune at the mismatch — in
the mismatch case and the exhausted-input case alike. -/
theorem str_failure_diag (s r : List Char) (i : Int) (fuel : Nat) (h0 : 0 ≤ i)
    (hfail : lcp s (r.drop i.toNat) < s.length) :
    check (fuel + 1) (.str s) r i =
      some { B := i, E := i + lcp s (r.drop i.toNat),
             X := some (.expectedStr ((s.drop (lcp s (r.drop i.toNat))).take 1)),
             C := [], R := r } := by
  have hne : s.drop (lcp s (r.drop i.toNat)) ≠ [] := by
    intro hnil
    have := congrArg List.length hnil
    simp [List.length_drop] at this
    omega
  obtain ⟨c, t, hct⟩ := List.exists_cons_of_ne_nil hne
  simp only [check, strCheck, strGo_eq_lcp s r i h0, hct, List.take_succ_cons,
    List.take_zero]

/-- Witness for C7 (amended): `str "ab"` on `"xb"` at position 0. -/
theorem str_failure_diag_witness :
    check 5 (.str ['a', 'b']) ['x', 'b'] 0 =
      some { B := 0, E := 0 + lcp ['a', 'b'] ((['x', 'b'] : List Char).drop (0 : Int).toNat),
             X := some (.expectedStr (((['a', 'b'] : List Char).drop
                    (lcp ['a', 'b'] ((['x', 'b'] : List Char).drop (0 : Int).toNat))).take 1)),
             C := [], R := ['x', 'b'] } :=
  str_failure_diag ['a', 'b'] ['x', 'b'] 0 4 (by decide) (by decide)

/-- C7 counterexample: `str "ab"` on `"xb"` fails with
`ErrExpected{"a"}` — the expected literal rune — not an error naming
the input rune `x` at the mismatch position. -/
theorem str_failure_cex :
    check 5 (.str ['a', 'b']) ['x', 'b'] 0 =
      some { B := 0, E := 0, X := some (.expectedStr ['a']), C := [], R := ['x', 'b'] } ∧
    (some (Err.expectedStr ['a']) ≠ some (Err.expectedRune 'x')) ∧
    (some (Err.expectedStr ['a']) ≠ some (Err.expectedStr ['x'])) := by
  refine ⟨rfl, ?_, ?_⟩
  · intro h
    exact Err.noConfusion (Option.some.inj h)
  · intro h
    have h2 := Option.some.inj h
    injection h2 with h3
    cases h3

end Rat

namespace Rat

/-- Bookkeeping of the `MakeMmx` loop: the children list grows by one
per counted iteration, the count never passes a non-negative `max`, and
every appended child is non-failing. -/
theorem mmxGo_count (chk : Int → Option Result) (mx : Int) :
    ∀ (fuel : Nat) (i : Int) (count : Nat) (acc acc2 : List Result) (iE : Int)
      (count2 : Nat) (last : Result),
      mmxGo chk mx fuel i count acc = some (acc2, iE, count2, last) →
      acc2.length + count = acc.length + count2 ∧
      ((count : Int) ≤ mx → (count2 : Int) ≤ mx) ∧
      (∀ c ∈ acc2, c ∈ acc ∨ c.X = none) := by
  intro fuel
  induction fuel with
  | zero => intro i count acc acc2 iE count2 last h; simp [mmxGo] at h
  | succ fuel ih =>
      intro i count acc acc2 iE count2 last h
      simp only [mmxGo] at h
      split at h
      · exact absurd h (by simp)
      · rename_i res heq
        split at h
        · rename_i hbrk
          cases h
          exact ⟨rfl, fun hle => hle, fun c hc => Or.inl hc⟩
        · rename_i hbrk
          push_neg at hbrk
          obtain ⟨hres, hcnt⟩ := hbrk
          have hxnone : res.X = none := by
            rcases hx : res.X with _ | v
            · rfl
            · rw [hx] at hres; simp at hres
          obtain ⟨hlen, hmono, hmem⟩ := ih res.E (count + 1) (acc ++ [res]) acc2 iE count2 last h
          simp only [List.length_append, List.length_singleton] at hlen
          refine ⟨by omega, ?_, ?_⟩
          · intro hle
            apply hmono
            have hne : (count : Int) ≠ mx := by exact_mod_cast hcnt
            push_cast
            omega
          · intro c hc
            rcases hmem c hc with hin | hx
            · rcases List.mem_append.mp hin with hin | hin
              · exact Or.inl hin
              · right
                simp only [List.mem_singleton] at hin
                subst hin
                exact hxnone
            · exact Or.inr hx

/-- C6 (amended): for a finite-range greedy repetition that succeeds,
every child is non-failing and the number of children is between `min`
and `max + 1`: the loop consumes between `min` and `max` sub-matches,
and when the `(max+1)`-th probe also succeeds it is recorded as one
extra non-failing child (without advancing the end). -/
theorem mmx_children_bounds (fuel : Nat) (mn mx : Int) (sub : Exp) (r : List Char)
    (i : Int) (res : Result)
    (h : check fuel (.mmx mn mx sub) r i = some res) (hok : res.X = none) :
    mn ≤ (countNonFailing res : Int) ∧ (countNonFailing res : Int) ≤ mx + 1 ∧
    countNonFailing res = res.C.length := by
  match fuel with
  | 0 => simp [check] at h
  | fuel + 1 =>
      simp only [check] at h
      split at h
      · exact absurd h (by simp)
      · rename_i acc2 iE count2 last heq
        obtain ⟨hlen, hmono, hmem⟩ :=
          mmxGo_count (fun j => check fuel sub r j) mx fuel i 0 [] acc2 iE count2 last heq
        simp only [List.length_nil] at hlen
        have hmemx : ∀ c ∈ acc2, c.X = none := by
          intro c hc
          rcases hmem c hc with hin | hx
          · cases hin
          · exact hx
        split at h
        · rename_i hcond
          obtain ⟨hge, hle⟩ := hcond
          cases h
          have hl2 : acc2.length = count2 := by omega
          simp only [countNonFailing]
          by_cases hlast : last.X.isNone = true
          · rw [if_pos hlast]
            have hall : ∀ c ∈ acc2 ++ [last], c.X.isNone = true := by
              intro c hc
              rcases List.mem_append.mp hc with hc | hc
              · simp [Option.isNone_iff_eq_none, hmemx c hc]
              · simp only [List.mem_singleton] at hc
                subst hc
                exact hlast
            rw [List.countP_eq_length.mpr hall]
            simp only [List.length_append, List.length_singleton]
            refine ⟨by omega, by omega, by trivial⟩
          · rw [if_neg hlast]
            have hall : ∀ c ∈ acc2, c.X.isNone = true := fun c hc => by
              simp [Option.isNone_iff_eq_none, hmemx c hc]
            rw [List.countP_eq_length.mpr hall]
            refine ⟨by omega, by omega, by trivial⟩
        · cases h
          simp at hok

/-- Witness for C6 (amended): `mmx(1, 2, str "a")` on `"aa"`. -/
theorem mmx_children_bounds_witness :
    check 9 (.mmx 1 2 (.str ['a'])) ['a', 'a'] 0 =
      some { B := 0, E := 2, X := none,
             C := [{ B := 0, E := 1, C := [], R := ['a', 'a'] },
                   { B := 1, E := 2, C := [], R := ['a', 'a'] }],
             R := ['a', 'a'] } ∧
    (1 : Int) ≤ 2 ∧ (2 : Int) ≤ 2 + 1 :=
  have h := mmx_children_bounds 9 1 2 (.str ['a']) ['a', 'a'] 0
    { B := 0, E := 2, X := none,
      C := [{ B := 0, E := 1, C := [], R := ['a', 'a'] },
            { B := 1, E := 2, C := [], R := ['a', 'a'] }],
      R := ['a', 'a'] } rfl rfl
  ⟨rfl, by exact_mod_cast h.1, by exact_mod_cast h.2.1⟩

/-- C6 counterexample: `mmx(1, 2, str "a")` on `"aaa"` succeeds with
three non-failing children — more than `max = 2`: the extra child is
the successful third probe, recorded even though only two sub-matches
were consumed. -/
theorem mmx_children_cex :
    check 9 (.mmx 1 2 (.str ['a'])) ['a', 'a', 'a'] 0 =
      some { B := 0, E := 2, X := none,
             C := [{ B := 0, E := 1, C := [], R := ['a', 'a', 'a'] },
                   { B := 1, E := 2, C := [], R := ['a', 'a', 'a'] },
                   { B := 2, E := 3, C := [], R := ['a', 'a', 'a'] }],
             R := ['a', 'a', 'a'] } ∧
    countNonFailing
        { B := 0, E := 2, X := none,
          C := [{ B := 0, E := 1, C := [], R := ['a', 'a', 'a'] },
                { B := 1, E := 2, C := [], R := ['a', 'a', 'a'] },
                { B := 2, E := 3, C := [], R := ['a', 'a', 'a'] }],
          R := ['a', 'a', 'a'] } = 3 ∧
    ¬ (3 : Nat) ≤ 2 := ⟨rfl, rfl, by decide⟩

end Rat

namespace Rat

theorem goodTree_node_iff {len : Int} {res : Result} (h : GoodTree len res) :
    goodNode len res := by
  cases h with
  | node _ hn _ => exact hn

theorem goodTree_setName {len : Int} {res : Result} (h : GoodTree len res) (nm : String) :
    GoodTree len { res with N := nm } := by
  cases h with
  | node _ hn hC =>
      exact GoodTree.node _ (by simpa [goodNode] using hn) (by simpa using hC)

/-- The induction hypothesis shape threaded through the loop lemmas:
checks at valid positions return span-invariant results starting where
they were invoked. -/
def Checked (len : Int) (chk : Exp → Int → Option Result) : Prop :=
  ∀ sub j res2, WFExp sub → 0 ≤ j → j ≤ len → chk sub j = some res2 →
    GoodTree len res2 ∧ res2.B = j ∧ (res2.X = none → j ≤ res2.E)

/-- States `Checked` for a loop over a single already-chosen sub-rule. -/
def Checked1 (len : Int) (chk : Int → Option Result) : Prop :=
  ∀ j res2, 0 ≤ j → j ≤ len → chk j = some res2 →
    GoodTree len res2 ∧ res2.B = j ∧ (res2.X = none → j ≤ res2.E)

theorem seqGo_inv (len : Int) (chk : Exp → Int → Option Result) (hchk : Checked len chk) :
    ∀ (subs : List Exp) (i : Int) (acc : List Result) (iE : Int) (cs : List Result)
      (err : Option Err),
      (∀ s ∈ subs, WFExp s) → 0 ≤ i → i ≤ len → (∀ c ∈ acc, GoodTree len c) →
      seqGo chk subs i acc = some (iE, cs, err) →
      -1 ≤ iE ∧ iE ≤ len ∧ (err = none → i ≤ iE) ∧ (∀ c ∈ cs, GoodTree len c) := by
  intro subs
  induction subs with
  | nil =>
      intro i acc iE cs err hwf h0 hlen hacc h
      simp only [seqGo] at h
      cases h
      exact ⟨by omega, by omega, fun _ => le_refl i, hacc⟩
  | cons sub rest ih =>
      intro i acc iE cs err hwf h0 hlen hacc h
      simp only [seqGo] at h
      split at h
      · exact absurd h (by simp)
      · rename_i res2 heq
        obtain ⟨hg, hB, hE⟩ := hchk sub i res2 (hwf sub (by simp)) h0 hlen heq
        have hgn := goodTree_node_iff hg
        split at h
        · rename_i hx
          have hxe : res2.X = none := by simpa [Option.isNone_iff_eq_none] using hx
          have hE' := hE hxe
          have hE2 : res2.E ≤ len := hgn.2.2.2.1
          obtain ⟨g1, g2, g3, g4⟩ := ih res2.E (acc ++ [res2]) iE cs err
            (fun s hs => hwf s (by simp [hs])) (le_trans h0 hE') hE2
            (by intro c hc
                rcases List.mem_append.mp hc with hc | hc
                · exact hacc c hc
                · simp only [List.mem_singleton] at hc
                  subst hc
                  exact hg) h
          exact ⟨g1, g2, fun he => le_trans hE' (g3 he), g4⟩
        · rename_i hx
          cases h
          refine ⟨hgn.2.2.1, hgn.2.2.2.1, ?_, ?_⟩
          · intro he
            exact absurd (Option.isNone_iff_eq_none.mpr he) hx
          · intro c hc
            rcases List.mem_append.mp hc with hc | hc
            · exact hacc c hc
            · simp only [List.mem_singleton] at hc
              subst hc
              exact hg

theorem oneGo_inv (len : Int) (chk : Exp → Int → Option Result) (hchk : Checked len chk) :
    ∀ (alts : List Exp) (i : Int) (out : Option Result),
      (∀ s ∈ alts, WFExp s) → 0 ≤ i → i ≤ len →
      oneGo chk alts i = some out →
      ∀ res2, out = some res2 →
        GoodTree len res2 ∧ res2.B = i ∧ res2.X = none ∧ i ≤ res2.E := by
  intro alts
  induction alts with
  | nil =>
      intro i out hwf h0 hlen h res2 hout
      simp only [oneGo] at h
      cases h
      cases hout
  | cons sub rest ih =>
      intro i out hwf h0 hlen h res2 hout
      simp only [oneGo] at h
      split at h
      · exact absurd h (by simp)
      · rename_i res3 heq
        obtain ⟨hg, hB, hE⟩ := hchk sub i res3 (hwf sub (by simp)) h0 hlen heq
        split at h
        · rename_i hx
          cases h
          cases hout
          have hxe : res2.X = none := by simpa [Option.isNone_iff_eq_none] using hx
          exact ⟨hg, hB, hxe, hE hxe⟩
        · exact ih i out (fun s hs => hwf s (by simp [hs])) h0 hlen h res2 hout

theorem mmxGo_inv (len : Int) (chk : Int → Option Result) (mx : Int)
    (hchk : Checked1 len chk) :
    ∀ (fuel : Nat) (i : Int) (count : Nat) (acc acc2 : List Result) (iE : Int)
      (count2 : Nat) (last : Result),
      0 ≤ i → i ≤ len → (∀ c ∈ acc, GoodTree len c) →
      mmxGo chk mx fuel i count acc = some (acc2, iE, count2, last) →
      i ≤ iE ∧ iE ≤ len ∧ (∀ c ∈ acc2, GoodTree len c) ∧ GoodTree len last := by
  intro fuel
  induction fuel with
  | zero =>
      intro i count acc acc2 iE count2 last h0 hlen hacc h
      simp [mmxGo] at h
  | succ fuel ih =>
      intro i count acc acc2 iE count2 last h0 hlen hacc h
      simp only [mmxGo] at h
      split at h
      · exact absurd h (by simp)
      · rename_i res heq
        obtain ⟨hg, hB, hE⟩ := hchk i res h0 hlen heq
        split at h
        · cases h
          exact ⟨le_refl i, hlen, hacc, hg⟩
        · rename_i hbrk
          push_neg at hbrk
          obtain ⟨hres, _⟩ := hbrk
          have hxnone : res.X = none := by
            rcases hx : res.X with _ | v
            · rfl
            · rw [hx] at hres
              simp at hres
          have hE' := hE hxnone
          have hE2 : res.E ≤ len := (goodTree_node_iff hg).2.2.2.1
          obtain ⟨g1, g2, g3, g4⟩ := ih res.E (count + 1) (acc ++ [res]) acc2 iE count2 last
            (le_trans h0 hE') hE2
            (by intro c hc
                rcases List.mem_append.mp hc with hc | hc
                · exact hacc c hc
                · simp only [List.mem_singleton] at hc
                  subst hc
                  exact hg) h
          exact ⟨le_trans hE' g1, g2, g3, g4⟩

theorem toGo_inv (chk : Int → Option Result) (rlen : Int) :
    ∀ (fuel : Nat) (i e iE : Int) (b : Bool),
      i ≤ rlen → toGo chk rlen fuel i e = some (iE, b) →
      e ≤ iE ∧ iE ≤ e + (rlen - i) := by
  intro fuel
  induction fuel with
  | zero =>
      intro i e iE b hle h
      simp [toGo] at h
  | succ fuel ih =>
      intro i e iE b hle h
      simp only [toGo] at h
      split at h
      · rename_i hi
        split at h
        · exact absurd h (by simp)
        · rename_i res heq
          split at h
          · cases h
            omega
          · have := ih (i + 1) (e + 1) iE b (by omega) h
            omega
      · cases h
        omega

/-- Span bounds of the literal check. -/
theorem strCheck_inv (s r : List Char) (i : Int) (res : Result) (h0 : 0 ≤ i)
    (hlen : i ≤ (r.length : Int)) (h : strCheck s r i = some res) :
    GoodTree (r.length : Int) res ∧ res.B = i ∧ (res.X = none → i ≤ res.E) := by
  rw [strCheck, strGo_eq_lcp s r i h0] at h
  have hd : (lcp s (r.drop i.toNat) : Int) ≤ (r.length : Int) - i := by
    have h1 := lcp_le_right s (r.drop i.toNat)
    have h2 : (r.drop i.toNat).length = r.length - i.toNat := by
      simp [List.length_drop]
    omega
  cases h
  have hE1 : i ≤ i + (lcp s (r.drop i.toNat) : Int) := by omega
  have hE2 : i + (lcp s (r.drop i.toNat) : Int) ≤ (r.length : Int) := by omega
  have hEm : (-1 : Int) ≤ i + (lcp s (r.drop i.toNat) : Int) := by omega
  exact ⟨GoodTree.node _ ⟨h0, hlen, hEm, hE2, fun _ => hE1⟩ (by simp), rfl, fun _ => hE1⟩

/-- C2 (amended): for well-formed rules checked at a valid position,
every node of the result tree satisfies `0 ≤ begin ≤ |s|`,
`-1 ≤ end ≤ |s|`, and `begin ≤ end` whenever the node succeeded.  The
claimed `0 ≤ begin ≤ end ≤ |s|` fails only on failing `any` checks,
which set `end = |s| - 1` (possibly `-1`, and below `begin` at
end-of-input); every other node, and every successful node, satisfies
the original bound. -/
theorem check_invariant :
    ∀ (fuel : Nat) (e : Exp) (r : List Char) (i : Int) (res : Result),
      WFExp e → 0 ≤ i → i ≤ (r.length : Int) → check fuel e r i = some res →
      GoodTree (r.length : Int) res ∧ res.B = i ∧ (res.X = none → i ≤ res.E) := by
  intro fuel
  induction fuel with
  | zero =>
      intro e r i res hwf h0 hlen h
      simp [check] at h
  | succ fuel ih =>
      intro e r i res hwf h0 hlen h
      have hlen0 : (0 : Int) ≤ (r.length : Int) := Int.natCast_nonneg _
      have hchk : Checked (r.length : Int) (fun sub j => check fuel sub r j) :=
        fun sub j res2 hw hj0 hjlen heq => ih sub r j res2 hw hj0 hjlen heq
      cases e with
      | str s =>
          simp only [check] at h
          exact strCheck_inv s r i res h0 hlen h
      | named nm sub =>
          have hws : WFExp sub := by simpa only [WFExp] using hwf
          simp only [check] at h
          split at h
          · exact absurd h (by simp)
          · rename_i res2 heq
            obtain ⟨hg, hB, hE⟩ := ih sub r i res2 hws h0 hlen heq
            cases h
            exact ⟨goodTree_setName hg nm, hB, hE⟩
      | seqR subs =>
          have hws : ∀ s ∈ subs, WFExp s := by simpa only [WFExp] using hwf
          simp only [check] at h
          split at h
          · exact absurd h (by simp)
          · rename_i iE cs err heq
            obtain ⟨g1, g2, g3, g4⟩ :=
              seqGo_inv _ _ hchk subs i [] iE cs err hws h0 hlen (by simp) heq
            cases h
            exact ⟨GoodTree.node _ ⟨h0, hlen, g1, g2, fun hx => g3 hx⟩ g4, rfl,
              fun hx => g3 hx⟩
      | one alts =>
          have hws : ∀ s ∈ alts, WFExp s := by simpa only [WFExp] using hwf
          simp only [check] at h
          split at h
          · exact absurd h (by simp)
          · rename_i res2 heq
            obtain ⟨hg, hB, hX, hE⟩ :=
              oneGo_inv _ _ hchk alts i _ hws h0 hlen heq res2 rfl
            cases h
            have hE2 : res2.E ≤ (r.length : Int) := (goodTree_node_iff hg).2.2.2.1
            have hEm : (-1 : Int) ≤ res2.E := by omega
            refine ⟨GoodTree.node _ ⟨h0, hlen, hEm, hE2, fun _ => hE⟩ ?_, rfl, fun _ => hE⟩
            intro c hc
            simp only [List.mem_singleton] at hc
            subst hc
            exact hg
          · rename_i heq
            cases h
            have hEm : (-1 : Int) ≤ i := by omega
            exact ⟨GoodTree.node _ ⟨h0, hlen, hEm, hlen, fun _ => le_refl i⟩ (by simp),
              rfl, fun _ => le_refl i⟩
      | mmx mn mx sub =>
          have hws : WFExp sub := by
            have h3 : 0 ≤ mn ∧ (mn ≤ mx ∨ mx = -1) ∧ WFExp sub := by
              simpa only [WFExp] using hwf
            exact h3.2.2
          simp only [check] at h
          split at h
          · exact absurd h (by simp)
          · rename_i acc2 iE count2 last heq
            obtain ⟨g1, g2, g3, g4⟩ := mmxGo_inv _ _ mx
              (fun j res2 hj0 hjlen he => ih sub r j res2 hws hj0 hjlen he)
              fuel i 0 [] acc2 iE count2 last h0 hlen (by simp) heq
            have hEm : (-1 : Int) ≤ iE := by omega
            split at h
            · cases h
              refine ⟨GoodTree.node _ ⟨h0, hlen, hEm, g2, fun _ => g1⟩ ?_, rfl, fun _ => g1⟩
              intro c hc
              split at hc
              · rcases List.mem_append.mp hc with hc | hc
                · exact g3 c hc
                · simp only [List.mem_singleton] at hc
                  subst hc
                  exact g4
              · exact g3 c hc
            · cases h
              refine ⟨GoodTree.node _ ⟨h0, hlen, hEm, g2, fun hx => by cases hx⟩ ?_, rfl,
                fun hx => by cases hx⟩
              intro c hc
              exact g3 c hc
      | see sub =>
          simp only [check] at h
          have hEm : (-1 : Int) ≤ i := by omega
          split at h
          · exact absurd h (by simp)
          · rename_i res2 heq
            split at h <;> cases h <;>
              exact ⟨GoodTree.node _ ⟨h0, hlen, hEm, hlen, fun _ => le_refl i⟩ (by simp),
                rfl, fun _ => le_refl i⟩
      | notx sub =>
          simp only [check] at h
          have hEm : (-1 : Int) ≤ i := by omega
          split at h
          · exact absurd h (by simp)
          · rename_i res2 heq
            split at h <;> cases h <;>
              exact ⟨GoodTree.node _ ⟨h0, hlen, hEm, hlen, fun _ => le_refl i⟩ (by simp),
                rfl, fun _ => le_refl i⟩
      | toR sub =>
          simp only [check] at h
          split at h
          · exact absurd h (by simp)
          · rename_i iE heq
            obtain ⟨g1, g2⟩ := toGo_inv _ _ fuel i i iE true hlen heq
            cases h
            have hE2 : iE ≤ (r.length : Int) := by omega
            have hEm : (-1 : Int) ≤ iE := by omega
            exact ⟨GoodTree.node _ ⟨h0, hlen, hEm, hE2, fun _ => g1⟩ (by simp), rfl,
              fun _ => g1⟩
          · rename_i iE heq
            obtain ⟨g1, g2⟩ := toGo_inv _ _ fuel i i iE false hlen heq
            cases h
            have hE2 : iE ≤ (r.length : Int) := by omega
            have hEm : (-1 : Int) ≤ iE := by omega
            exact ⟨GoodTree.node _ ⟨h0, hlen, hEm, hE2, fun _ => g1⟩ (by simp), rfl,
              fun _ => g1⟩
      | anyN n =>
          have hn : (0 : Int) ≤ n := by simpa only [WFExp] using hwf
          simp only [check] at h
          split at h
          · rename_i hgt
            cases h
            have hEm : (-1 : Int) ≤ (r.length : Int) - 1 := by omega
            have hE2 : (r.length : Int) - 1 ≤ (r.length : Int) := by omega
            exact ⟨GoodTree.node _ ⟨h0, hlen, hEm, hE2, fun hx => by cases hx⟩ (by simp),
              rfl, fun hx => by cases hx⟩
          · rename_i hle
            cases h
            have hE1 : i ≤ i + n := by omega
            have hE2 : i + n ≤ (r.length : Int) := by omega
            have hEm : (-1 : Int) ≤ i + n := by omega
            exact ⟨GoodTree.node _ ⟨h0, hlen, hEm, hE2, fun _ => hE1⟩ (by simp), rfl,
              fun _ => hE1⟩
      | anyMmx m mx2 =>
          have hmn : m < mx2 ∧ 0 < mx2 := by simpa only [WFExp] using hwf
          simp only [check] at h
          split at h
          · rename_i hgt
            cases h
            have hEm : (-1 : Int) ≤ (r.length : Int) - 1 := by omega
            have hE2 : (r.length : Int) - 1 ≤ (r.length : Int) := by omega
            exact ⟨GoodTree.node _ ⟨h0, hlen, hEm, hE2, fun hx => by cases hx⟩ (by simp),
              rfl, fun hx => by cases hx⟩
          · rename_i hle
            split at h
            · rename_i hlt
              cases h
              have hE1 : i ≤ i + mx2 := by omega
              have hE2 : i + mx2 ≤ (r.length : Int) := by omega
              have hEm : (-1 : Int) ≤ i + mx2 := by omega
              exact ⟨GoodTree.node _ ⟨h0, hlen, hEm, hE2, fun _ => hE1⟩ (by simp), rfl,
                fun _ => hE1⟩
            · cases h
              have hEm : (-1 : Int) ≤ (r.length : Int) := by omega
              exact ⟨GoodTree.node _ ⟨h0, hlen, hEm, le_refl _, fun _ => hlen⟩ (by simp),
                rfl, fun _ => hlen⟩
      | rng lo hi =>
          simp only [check] at h
          split at h
          · exact absurd h (by simp)
          · rename_i cur heq
            rw [runeAt, if_pos h0] at heq
            have hlt : i < (r.length : Int) := by
              have h2 : i.toNat < r.length := by
                rcases List.get?_eq_some.mp heq with ⟨hh, -⟩
                exact hh
              omega
            split at h
            · cases h
              have hE1 : i ≤ i + 1 := by omega
              have hE2 : i + 1 ≤ (r.length : Int) := by omega
              have hEm : (-1 : Int) ≤ i + 1 := by omega
              exact ⟨GoodTree.node _ ⟨h0, hlen, hEm, hE2, fun _ => hE1⟩ (by simp), rfl,
                fun _ => hE1⟩
            · cases h
              have hEm : (-1 : Int) ≤ i := by omega
              exact ⟨GoodTree.node _ ⟨h0, hlen, hEm, hlen, fun _ => le_refl i⟩ (by simp),
                rfl, fun _ => le_refl i⟩
      | endx =>
          simp only [check] at h
          have hEm : (-1 : Int) ≤ i := by omega
          split at h <;> cases h <;>
            exact ⟨GoodTree.node _ ⟨h0, hlen, hEm, hlen, fun _ => le_refl i⟩ (by simp),
              rfl, fun _ => le_refl i⟩

/-- Witness for C2 (amended) at a concrete grammar and input:
`seq(any(2), end)` on `"fo"`. -/
theorem check_invariant_witness :
    check 9 (.seqR [.anyN 2, .endx]) ['f', 'o'] 0 =
      some { B := 0, E := 2, X := none,
             C := [{ B := 0, E := 2, C := [], R := ['f', 'o'] },
                   { B := 2, E := 2, C := [], R := ['f', 'o'] }],
             R := ['f', 'o'] } ∧
    GoodTree ((['f', 'o'] : List Char).length : Int)
      { B := 0, E := 2, X := none,
        C := [{ B := 0, E := 2, C := [], R := ['f', 'o'] },
              { B := 2, E := 2, C := [], R := ['f', 'o'] }],
        R := ['f', 'o'] } :=
  ⟨rfl,
   (check_invariant 9 (.seqR [.anyN 2, .endx]) ['f', 'o'] 0 _
      (by simp only [WFExp]
          intro s hs
          rcases List.mem_cons.mp hs with hh | hh
          · subst hh
            simp only [WFExp]
            decide
          · simp only [List.mem_singleton] at hh
            subst hh
            simp only [WFExp])
      (by decide) (by decide) rfl).1⟩

end Rat
